import Mathlib

/-!
Verification development for the frame-scanning / packet-decoding /
columnar-writing core of the flight-data-visualisation backend
(`backend/services/parse_service.py`, with `backend/packet_parser.py` as an
earlier revision of the same design).

Bytes are modelled as `Nat` (each concrete byte is `< 256`); byte strings as
`List Nat`.  Python dicts holding decoded values are modelled as association
lists in insertion order, with assignment appending and lookup returning the
last binding (Python's "last assignment wins").  Fallible code (the
`ValueError` raised by `_parse_payload`) is modelled with `Except String`.
-/

set_option autoImplicit false

namespace ParseService

/-- Constant `START_FRAME = 0x01` (parse_service.py line 21). -/
def START_FRAME : Nat := 0x01

/-- Constant `END_FRAME = 0x05` (parse_service.py line 22). -/
def END_FRAME : Nat := 0x05

/-! ## FrameScanner

`class FrameScanner` (parse_service.py lines 101-133; the copy in
packet_parser.py lines 82-118 is byte-for-byte the same algorithm).
State: the two marker bytes, the growing buffer `_buf`, and the
`_inside` flag. -/

structure ScanState where
  start : Nat
  stop : Nat
  buf : List Nat
  inside : Bool
  deriving Repr, DecidableEq

/-- Constructor `FrameScanner.__init__`: empty buffer, not inside a frame. -/
def initScan (start stop : Nat) : ScanState :=
  { start := start, stop := stop, buf := [], inside := false }

/-- One iteration of the `for b in data` loop in `FrameScanner.feed`:
returns the updated state and the frames yielded at this byte
(zero or one). -/
def scanStep (s : ScanState) (b : Nat) : ScanState × List (List Nat) :=
  if !s.inside then
    if b = s.start then ({ s with buf := [b], inside := true }, [])
    else (s, [])
  else if b = s.stop then
    ({ s with buf := [], inside := false }, [s.buf ++ [b]])
  else if b = s.start then
    ({ s with buf := [b], inside := true }, [])
  else
    ({ s with buf := s.buf ++ [b] }, [])

/-- Method `FrameScanner.feed(data)`: fold `scanStep` over the bytes, collecting
every yielded frame in order. -/
def scanFeed (s : ScanState) : List Nat → ScanState × List (List Nat)
  | [] => (s, [])
  | b :: rest =>
    ((scanFeed (scanStep s b).1 rest).1,
      (scanStep s b).2 ++ (scanFeed (scanStep s b).1 rest).2)

/-- Method `FrameScanner.flush()`: drop any partial frame, yield nothing. -/
def scanFlush (s : ScanState) : ScanState :=
  { s with buf := [], inside := false }

/-- Successive `feed` calls, one per chunk, collecting all frames. -/
def scanFeedChunks (s : ScanState) : List (List Nat) → ScanState × List (List Nat)
  | [] => (s, [])
  | c :: cs =>
    ((scanFeedChunks (scanFeed s c).1 cs).1,
      (scanFeed s c).2 ++ (scanFeedChunks (scanFeed s c).1 cs).2)

/-- Frames obtained by feeding `data` to a fresh scanner (then `flush`,
which emits nothing). -/
def scanAllFrames (start stop : Nat) (data : List Nat) : List (List Nat) :=
  (scanFeed (initScan start stop) data).2

/-- Frames obtained by feeding `chunks` one `feed` call at a time to a
fresh scanner (then `flush`, which emits nothing). -/
def scanChunkedFrames (start stop : Nat) (chunks : List (List Nat)) : List (List Nat) :=
  (scanFeedChunks (initScan start stop) chunks).2

theorem scanFeed_append (s : ScanState) (a b : List Nat) :
    scanFeed s (a ++ b) =
      ((scanFeed (scanFeed s a).1 b).1,
        (scanFeed s a).2 ++ (scanFeed (scanFeed s a).1 b).2) := by
  induction a generalizing s with
  | nil => simp [scanFeed]
  | cons x xs ih =>
    simp only [List.cons_append, scanFeed, List.append_eq]
    rw [ih]
    simp [List.append_assoc]

/-- C4. **Chunk-boundary invariance.**  Feeding a byte stream split into any
list of consecutive chunks through successive `feed` calls (then `flush`,
which emits nothing) yields exactly the frames of a single `feed` of the
concatenation. -/
theorem scanner_chunk_invariance (start stop : Nat) (chunks : List (List Nat)) :
    scanChunkedFrames start stop chunks = scanAllFrames start stop chunks.flatten := by
  suffices h : ∀ s : ScanState, scanFeedChunks s chunks = scanFeed s chunks.flatten by
    simp [scanChunkedFrames, scanAllFrames, h]
  intro s
  induction chunks generalizing s with
  | nil => simp [scanFeedChunks, scanFeed]
  | cons c cs ih =>
    simp [scanFeedChunks, List.flatten, scanFeed_append, ih]

/-- A frame as `FrameScanner.feed` emits it: at least two bytes, start
marker first, end marker last, and no marker byte strictly inside. -/
def GoodFrame (start stop : Nat) (f : List Nat) : Prop :=
  2 ≤ f.length ∧ f.headD 0 = start ∧ f.getLastD 0 = stop ∧
    ∀ i, 0 < i → i + 1 < f.length → f.getD i 0 ≠ start ∧ f.getD i 0 ≠ stop

theorem goodFrame_of_structure (start stop : Nat) (mid : List Nat)
    (h : ∀ b ∈ mid, b ≠ start ∧ b ≠ stop) :
    GoodFrame start stop (start :: (mid ++ [stop])) := by
  have hlen2 : (start :: (mid ++ [stop])).length = mid.length + 2 := by simp
  refine ⟨by omega, by simp, ?_, ?_⟩
  · rw [show start :: (mid ++ [stop]) = (start :: mid) ++ [stop] from by simp]
    exact List.getLastD_concat _ _ _
  · intro i hi hlen
    rw [hlen2] at hlen
    have hi' : i - 1 < mid.length := by omega
    have hgd : (start :: (mid ++ [stop])).getD i 0 = mid.getD (i - 1) 0 := by
      cases i with
      | zero => omega
      | succ j =>
        simp only [List.getD_cons_succ, Nat.succ_sub_one]
        exact List.getD_append _ _ _ _ (by omega)
    rw [hgd]
    have hmem : mid.getD (i - 1) 0 ∈ mid := by
      rw [List.getD_eq_getElem _ _ hi']
      exact List.getElem_mem hi'
    exact h _ hmem

/-- Invariant of the scanner state: while inside a frame the buffer is the
start marker followed by non-marker bytes. -/
def ScanInv (s : ScanState) : Prop :=
  s.inside = true → ∃ rest, s.buf = s.start :: rest ∧
    ∀ b ∈ rest, b ≠ s.start ∧ b ≠ s.stop

theorem scanStep_markers (s : ScanState) (b : Nat) :
    (scanStep s b).1.start = s.start ∧ (scanStep s b).1.stop = s.stop := by
  unfold scanStep
  split_ifs <;> simp

/-- Reduction: outside a frame, a start byte enters the frame. -/
theorem scanStep_enter (s : ScanState) (b : Nat)
    (hin : s.inside = false) (hb : b = s.start) :
    scanStep s b = ({ s with buf := [s.start], inside := true }, []) := by
  subst hb
  simp [scanStep, hin]

/-- Reduction: outside a frame, a non-start byte is discarded. -/
theorem scanStep_skip (s : ScanState) (b : Nat)
    (hin : s.inside = false) (hb : b ≠ s.start) :
    scanStep s b = (s, []) := by
  simp [scanStep, hin, hb]

/-- Reduction: inside a frame, an end byte emits the buffer. -/
theorem scanStep_emit (s : ScanState) (b : Nat)
    (hin : s.inside = true) (hb : b = s.stop) :
    scanStep s b = ({ s with buf := [], inside := false }, [s.buf ++ [b]]) := by
  simp [scanStep, hin, hb]

/-- Reduction: inside a frame, a start byte (not also the end byte)
resyncs: buffer becomes just the start byte, nothing is emitted. -/
theorem scanStep_resync (s : ScanState) (b : Nat)
    (hin : s.inside = true) (hb : b = s.start) (hne : b ≠ s.stop) :
    scanStep s b = ({ s with buf := [s.start], inside := true }, []) := by
  subst hb
  simp [scanStep, hin, hne]

/-- Reduction: inside a frame, an ordinary byte is appended. -/
theorem scanStep_append (s : ScanState) (b : Nat)
    (hin : s.inside = true) (hb1 : b ≠ s.stop) (hb2 : b ≠ s.start) :
    scanStep s b = ({ s with buf := s.buf ++ [b] }, []) := by
  simp [scanStep, hin, hb1, hb2]

theorem scanStep_inv (s : ScanState) (b : Nat) (hs : ScanInv s) :
    ScanInv (scanStep s b).1 ∧
      ∀ f ∈ (scanStep s b).2, GoodFrame s.start s.stop f := by
  by_cases hin : s.inside = true
  · obtain ⟨rest, hbuf, hrest⟩ := hs hin
    by_cases hstop : b = s.stop
    · rw [scanStep_emit s b hin hstop]
      refine ⟨fun h => by simp at h, ?_⟩
      intro f hf
      simp only [List.mem_singleton] at hf
      subst hf
      rw [hbuf, hstop, List.cons_append]
      exact goodFrame_of_structure _ _ _ hrest
    · by_cases hstart : b = s.start
      · rw [scanStep_resync s b hin hstart hstop]
        exact ⟨fun _ => ⟨[], rfl, by simp⟩, by simp⟩
      · rw [scanStep_append s b hin hstop hstart]
        refine ⟨fun _ => ⟨rest ++ [b], by rw [hbuf, List.cons_append], ?_⟩, by simp⟩
        intro x hx
        rcases List.mem_append.mp hx with hx | hx
        · exact hrest x hx
        · simp only [List.mem_singleton] at hx
          subst hx
          exact ⟨hstart, hstop⟩
  · have hin' : s.inside = false := by
      cases h : s.inside with
      | false => rfl
      | true => exact absurd h hin
    by_cases hstart : b = s.start
    · rw [scanStep_enter s b hin' hstart]
      exact ⟨fun _ => ⟨[], rfl, by simp⟩, by simp⟩
    · rw [scanStep_skip s b hin' hstart]
      exact ⟨hs, by simp⟩

theorem scanFeed_inv (s : ScanState) (data : List Nat) (hs : ScanInv s) :
    ScanInv (scanFeed s data).1 ∧
      ∀ f ∈ (scanFeed s data).2, GoodFrame s.start s.stop f := by
  induction data generalizing s with
  | nil => exact ⟨hs, by simp [scanFeed]⟩
  | cons b rest ih =>
    have hstep := scanStep_inv s b hs
    have hm := scanStep_markers s b
    have hrec := ih (scanStep s b).1 hstep.1
    constructor
    · simpa [scanFeed] using hrec.1
    · intro f hf
      simp only [scanFeed, List.mem_append] at hf
      rcases hf with hf | hf
      · exact hstep.2 f hf
      · have := hrec.2 f hf
        rwa [hm.1, hm.2] at this

/-- C9.  Every frame emitted by `FrameScanner.feed` on a fresh scanner has
length at least 2, begins with the start marker, ends with the end marker,
and holds neither marker at any interior position. -/
theorem scanner_emits_wellformed_frames (start stop : Nat) (data : List Nat)
    (f : List Nat) (hf : f ∈ scanAllFrames start stop data) :
    2 ≤ f.length ∧ f.headD 0 = start ∧ f.getLastD 0 = stop ∧
      ∀ i, 0 < i → i + 1 < f.length → f.getD i 0 ≠ start ∧ f.getD i 0 ≠ stop :=
  (scanFeed_inv (initScan start stop) data (by intro h; simp [initScan] at h)).2 f hf

/-- Witness for C9 at the concrete stream `[9, 1, 2, 5, 7]`, whose single
emitted frame is `[1, 2, 5]`. -/
theorem scanner_emits_wellformed_frames_witness :
    ([1, 2, 5] : List Nat) ∈ scanAllFrames 1 5 [9, 1, 2, 5, 7] ∧
      2 ≤ ([1, 2, 5] : List Nat).length ∧
      ([1, 2, 5] : List Nat).headD 0 = 1 ∧
      ([1, 2, 5] : List Nat).getLastD 0 = 5 ∧
      (([1, 2, 5] : List Nat).getD 1 0 ≠ 1 ∧ ([1, 2, 5] : List Nat).getD 1 0 ≠ 5) := by
  have hmem : ([1, 2, 5] : List Nat) ∈ scanAllFrames 1 5 [9, 1, 2, 5, 7] := by decide
  have h := scanner_emits_wellformed_frames 1 5 [9, 1, 2, 5, 7] [1, 2, 5] hmem
  exact ⟨hmem, h.1, h.2.1, h.2.2.1, h.2.2.2 1 (by decide) (by decide)⟩

/-- C10.  When `feed` meets a start-marker byte while already inside a frame
(and that byte is not also the end marker, which is checked first), it
abandons the partial frame — emitting nothing — and resets the buffer to
just that start-marker byte, staying inside. -/
theorem scanner_resync_policy (s : ScanState) (b : Nat)
    (hin : s.inside = true) (hb : b = s.start) (hne : b ≠ s.stop) :
    scanStep s b = ({ s with buf := [s.start], inside := true }, []) := by
  subst hb
  simp [scanStep, hin, hne]

/-- Witness for C10: inside a frame with buffer `[1, 9]`, byte `1` (the
start marker) resets the buffer to `[1]` and emits nothing. -/
theorem scanner_resync_policy_witness :
    scanStep ⟨1, 5, [1, 9], true⟩ 1 = (⟨1, 5, [1], true⟩, []) :=
  scanner_resync_policy ⟨1, 5, [1, 9], true⟩ 1 rfl rfl (by decide)

/-! ## Schema definitions and the schema registry

A schema entry of `packet_schema.json` as `stream_to_parquet` and
`compute_all_columns` consume it: numeric `id`, declared total `length`
(`int(schema.get("length", 0))`, `0` meaning "no length declared" and
disabling the length check), optional `num_bytes` (checked only when the
key is present), ordered `fields` (each with `name`, `size`, and the
`bits` list, empty when the `"bits"` key is absent), and the optional
`all_fields` superset list (empty when absent). -/

structure Field where
  name : String
  size : Nat
  bits : List String
  deriving Repr, DecidableEq

structure Schema where
  id : Nat
  length : Nat
  num_bytes : Option Nat
  fields : List Field
  all_fields : List String
  deriving Repr, DecidableEq

/-- Python dict assignment `m[k] = v`: replace the binding in place when
the key is present, append it otherwise. -/
def storeAssoc {κ α : Type} [DecidableEq κ] : List (κ × α) → κ → α → List (κ × α)
  | [], k, v => [(k, v)]
  | p :: ps, k, v => if p.1 = k then (k, v) :: ps else p :: storeAssoc ps k v

/-- Python dict lookup `m.get(k)` on a list with unique keys. -/
def lookupAssoc {κ α : Type} [DecidableEq κ] (d : List (κ × α)) (k : κ) : Option α :=
  (d.find? (fun p => decide (p.1 = k))).map (fun p => p.2)

/-- Line 239: `schema_map = {int(s["id"]): s for s in schemas}` — a Python
dict comprehension.  A repeated id raises nothing: the later binding
overwrites the earlier one. -/
def buildSchemaMap (schemas : List Schema) : List (Nat × Schema) :=
  schemas.foldl (fun m s => storeAssoc m s.id s) []

/-- Lookup `schema_map.get(pkt_id)` (line 199). -/
def smLookup (m : List (Nat × Schema)) (k : Nat) : Option Schema :=
  lookupAssoc m k

/-- Loading the registry (lines 237-239).  For a source that parses into
typed `Schema` values the comprehension is total; in particular duplicate
ids are not an error.  (The file-level failure modes — unreadable file,
malformed JSON, missing or non-numeric `"id"` — are outside the typed
model and are the only ways this step can fail.) -/
def loadSchemaMap (schemas : List Schema) : Except String (List (Nat × Schema)) :=
  .ok (buildSchemaMap schemas)

/-! ## Packet decoder -/

/-- Helper `_to_int_be` (lines 145-149): `n = (n << 8) | x` over the bytes. -/
def toIntBE (b : List Nat) : Nat :=
  b.foldl (fun n x => (n <<< 8) ||| x) 0

/-- Helper `_expand_bits` (lines 152-159) as called with `msb_first=False`
(line 180): bit `i` of the output name list is `(byte_val >> i) & 1`. -/
def expandBits (byteVal : Nat) (bitNames : List String) : List (String × Nat) :=
  bitNames.enum.map (fun p => (p.2, (byteVal >>> p.1) &&& 1))

/-- The cells one field contributes in `_parse_payload`'s loop body
(lines 168-182): `chunk = payload[idx:idx+size]`; a 1-byte field stores
`chunk[0]` under its name and expands its declared bits; a multi-byte
field stores the big-endian value of the chunk. -/
def fieldCellsOf (payload : List Nat) (idx : Nat) (fld : Field) : List (String × Nat) :=
  if fld.size = 1 then
    (fld.name, ((payload.drop idx).take fld.size).headD 0) ::
      expandBits (((payload.drop idx).take fld.size).headD 0) fld.bits
  else
    [(fld.name, toIntBE ((payload.drop idx).take fld.size))]

/-- The loop of `_parse_payload` (lines 162-183): sequential fields at a
running offset; when `idx + size > len(payload)` it raises
`ValueError(f"Payload too short for field {name}")`, modelled as
`.error`. -/
def parseFields (payload : List Nat) (idx : Nat) :
    List Field → Except String (List (String × Nat))
  | [] => .ok []
  | fld :: rest =>
    if payload.length < idx + fld.size then
      .error ("Payload too short for field " ++ fld.name)
    else
      match parseFields payload (idx + fld.size) rest with
      | .ok out => .ok (fieldCellsOf payload idx fld ++ out)
      | .error e => .error e

/-- Function `_parse_payload` (lines 162-183). -/
def parsePayload (payload : List Nat) (schema : Schema) :
    Except String (List (String × Nat)) :=
  parseFields payload 0 schema.fields

/-- The payload slice of line 214: `frame[3 : 3 + (len(frame) - 6)]`. -/
def framePayload (frame : List Nat) : List Nat :=
  (frame.drop 3).take (frame.length - 6)

/-- Function `_parse_frame` (lines 186-218).  Checks, in order: minimum
length 6, the two markers, a schema for `frame[1]`, the declared length
(when nonzero), the declared `num_bytes` (when present) against
`frame[2]`; then parses the payload.  The `payload_len < 0` branch of
line 212 is unreachable once `len(frame) >= 6`.  No checksum is ever
computed or compared.  A `ValueError` from `_parse_payload` is not
caught, modelled as `.error`. -/
def parseFrame (frame : List Nat) (schemaMap : List (Nat × Schema)) :
    Except String (Bool × List (String × Nat)) :=
  if frame.length < 6 then .ok (false, [])
  else if frame.getD 0 0 ≠ START_FRAME ∨ frame.getD (frame.length - 1) 0 ≠ END_FRAME then
    .ok (false, [])
  else
    match smLookup schemaMap (frame.getD 1 0) with
    | none => .ok (false, [("ID", frame.getD 1 0)])
    | some schema =>
      if schema.length ≠ 0 ∧ schema.length ≠ frame.length then
        .ok (false, [("ID", frame.getD 1 0)])
      else if schema.num_bytes.isSome ∧ some (frame.getD 2 0) ≠ schema.num_bytes then
        .ok (false, [("ID", frame.getD 1 0)])
      else
        match parsePayload (framePayload frame) schema with
        | .ok data => .ok (true, data ++ [("ID", frame.getD 1 0)])
        | .error e => .error e

/-- Characterization of a successful decode: exactly the structural checks
of `_parse_frame` pass and the payload parses. -/
theorem parseFrame_ok_iff (frame : List Nat) (sm : List (Nat × Schema))
    (d : List (String × Nat)) :
    parseFrame frame sm = .ok (true, d) ↔
      6 ≤ frame.length ∧ frame.getD 0 0 = START_FRAME ∧
        frame.getD (frame.length - 1) 0 = END_FRAME ∧
        ∃ schema, smLookup sm (frame.getD 1 0) = some schema ∧
          (schema.length = 0 ∨ schema.length = frame.length) ∧
          (schema.num_bytes.isSome → schema.num_bytes = some (frame.getD 2 0)) ∧
          ∃ data, parseFields (framePayload frame) 0 schema.fields = .ok data ∧
            d = data ++ [("ID", frame.getD 1 0)] := by
  unfold parseFrame
  by_cases h1 : frame.length < 6
  · rw [if_pos h1]
    constructor
    · intro h
      exact absurd h (by simp)
    · intro h
      exact absurd h.1 (by omega)
  · rw [if_neg h1]
    by_cases h2 : frame.getD 0 0 ≠ START_FRAME ∨ frame.getD (frame.length - 1) 0 ≠ END_FRAME
    · rw [if_pos h2]
      constructor
      · intro h
        exact absurd h (by simp)
      · intro h
        rcases h2 with h2 | h2
        · exact absurd h.2.1 h2
        · exact absurd h.2.2.1 h2
    · rw [if_neg h2]
      push_neg at h2
      cases hsm : smLookup sm (frame.getD 1 0) with
      | none =>
        constructor
        · intro h
          exact absurd h (by simp)
        · rintro ⟨-, -, -, schema, hs, -⟩
          simp [hsm] at hs
      | some schema =>
        dsimp only
        by_cases h3 : schema.length ≠ 0 ∧ schema.length ≠ frame.length
        · rw [if_pos h3]
          constructor
          · intro h
            exact absurd h (by simp)
          · rintro ⟨-, -, -, schema', hs', hlen', -⟩
            obtain rfl : schema = schema' := by injection hs'
            rcases hlen' with h | h
            · exact absurd h h3.1
            · exact absurd h h3.2
        · rw [if_neg h3]
          by_cases h4 : schema.num_bytes.isSome ∧ some (frame.getD 2 0) ≠ schema.num_bytes
          · rw [if_pos h4]
            constructor
            · intro h
              exact absurd h (by simp)
            · rintro ⟨-, -, -, schema', hs', -, hnb', -⟩
              obtain rfl : schema = schema' := by injection hs'
              exact absurd (hnb' h4.1).symm h4.2
          · rw [if_neg h4]
            cases hp : parsePayload (framePayload frame) schema with
            | error e =>
              constructor
              · intro h
                exact absurd h (by simp)
              · rintro ⟨-, -, -, schema', hs', -, -, data, hpd, -⟩
                obtain rfl : schema = schema' := by injection hs'
                rw [show parsePayload (framePayload frame) schema =
                  parseFields (framePayload frame) 0 schema.fields from rfl] at hp
                rw [hp] at hpd
                exact absurd hpd (by simp)
            | ok data =>
              constructor
              · intro h
                have hd : data ++ [("ID", frame.getD 1 0)] = d := by
                  have h' := h
                  simp only [Except.ok.injEq, Prod.mk.injEq] at h'
                  exact h'.2
                refine ⟨by omega, h2.1, h2.2, schema, rfl, ?_, ?_, data, hp, hd.symm⟩
                · rcases Decidable.em (schema.length = 0) with h' | h'
                  · exact Or.inl h'
                  · rcases Decidable.em (schema.length = frame.length) with h'' | h''
                    · exact Or.inr h''
                    · exact absurd ⟨h', h''⟩ h3
                · intro hs
                  by_contra hne
                  exact h4 ⟨hs, fun hx => hne hx.symm⟩
              · rintro ⟨-, -, -, schema', hs', -, -, data', hpd, hdd⟩
                obtain rfl : schema = schema' := by injection hs'
                rw [show parsePayload (framePayload frame) schema =
                  parseFields (framePayload frame) 0 schema.fields from rfl] at hp
                rw [hp] at hpd
                obtain rfl : data = data' := by injection hpd
                dsimp only
                rw [hdd]

theorem getD_set_ne (l : List Nat) (i j v : Nat) (hij : i ≠ j) :
    (l.set i v).getD j 0 = l.getD j 0 := by
  by_cases hj : j < l.length
  · rw [List.getD_eq_getElem _ _ (by simpa using hj), List.getD_eq_getElem _ _ hj]
    exact List.getElem_set_ne hij _
  · rw [List.getD_eq_default _ _ (by simp; omega), List.getD_eq_default _ _ (by omega)]

/-- Whether `_parse_payload` raises depends only on the payload length,
never on its bytes: the only check in the loop is `idx + size > len`. -/
theorem parseFields_ok_of_length (flds : List Field) (p q : List Nat) (idx : Nat)
    (hlen : q.length = p.length) (out : List (String × Nat))
    (h : parseFields p idx flds = .ok out) :
    ∃ out', parseFields q idx flds = .ok out' := by
  induction flds generalizing idx out with
  | nil => exact ⟨[], rfl⟩
  | cons f fs ih =>
    unfold parseFields at h ⊢
    by_cases hc : p.length < idx + f.size
    · rw [if_pos hc] at h
      exact absurd h (by simp)
    · rw [if_neg hc] at h
      rw [if_neg (by omega)]
      cases hrec : parseFields p (idx + f.size) fs with
      | error e =>
        rw [hrec] at h
        exact absurd h (by simp)
      | ok out1 =>
        obtain ⟨out1', h1'⟩ := ih (idx + f.size) out1 hrec
        rw [h1']
        exact ⟨_, rfl⟩

/-! ## C1: checksum verification

The spec declares `Checksum = (sum of payload bytes + numbytes) mod 65536`,
stored big-endian in the two bytes before the end marker, and makes
checksum match a validity condition.  The definitions below follow the
spec's words; `_parse_frame` computes no checksum at all. -/

/-- Modelled from the spec (§3, "Frame"): the checksum value a frame
*should* carry: `(sum of payload bytes + numbytes) mod 65536`. -/
def specChecksum (frame : List Nat) : Nat :=
  ((framePayload frame).sum + frame.getD 2 0) % 65536

/-- Modelled from the spec (§3, "Frame"): the 16-bit big-endian checksum
actually stored in the two bytes before the end marker. -/
def storedChecksum (frame : List Nat) : Nat :=
  256 * frame.getD (frame.length - 3) 0 + frame.getD (frame.length - 2) 0

/-- C1 counterexample.  With the registry for a single packet type
(id 1, length 7, num_bytes 1, one 1-byte field `X`), the frame
`01 01 01 05 00 06 05` is checksum-correct and decodes successfully.
Overwriting its only payload byte `05` (index 3) with `07` makes the
stored checksum wrong, yet `_parse_frame` still accepts the frame:
the decoder never verifies the checksum, refuting the claim that it
accepts only checksum-matching frames and that any single payload-byte
mutation makes decode fail. -/
theorem decoder_ignores_checksum_counterexample :
    storedChecksum [1, 1, 1, 5, 0, 6, 5] = specChecksum [1, 1, 1, 5, 0, 6, 5] ∧
    parseFrame [1, 1, 1, 5, 0, 6, 5] (buildSchemaMap [⟨1, 7, some 1, [⟨"X", 1, []⟩], []⟩]) =
      .ok (true, [("X", 5), ("ID", 1)]) ∧
    [1, 1, 1, 7, 0, 6, 5] = List.set [1, 1, 1, 5, 0, 6, 5] 3 7 ∧
    storedChecksum [1, 1, 1, 7, 0, 6, 5] ≠ specChecksum [1, 1, 1, 7, 0, 6, 5] ∧
    parseFrame [1, 1, 1, 7, 0, 6, 5] (buildSchemaMap [⟨1, 7, some 1, [⟨"X", 1, []⟩], []⟩]) =
      .ok (true, [("X", 7), ("ID", 1)]) := by
  refine ⟨by decide, rfl, by decide, by decide, rfl⟩

/-- C1 (amended).  The decoder performs no checksum verification:
whenever a frame decodes successfully, overwriting any single payload
byte (index `i` with `3 ≤ i` and `i + 3 < length`, i.e. strictly between
the header bytes and the checksum/end bytes) with any value still
decodes successfully. -/
theorem decoder_accepts_any_payload_mutation (frame : List Nat)
    (sm : List (Nat × Schema)) (d : List (String × Nat))
    (h : parseFrame frame sm = .ok (true, d)) (i v : Nat)
    (hi : 3 ≤ i) (hiu : i + 3 < frame.length) :
    ∃ d', parseFrame (frame.set i v) sm = .ok (true, d') := by
  rw [parseFrame_ok_iff] at h
  obtain ⟨hlen, h0, hlast, schema, hsm, hslen, hnb, data, hp, -⟩ := h
  have hsetlen : (frame.set i v).length = frame.length := List.length_set frame i v
  have hpay : (framePayload (frame.set i v)).length = (framePayload frame).length := by
    simp [framePayload, hsetlen]
  obtain ⟨data', hp'⟩ := parseFields_ok_of_length schema.fields
    (framePayload frame) (framePayload (frame.set i v)) 0 hpay data hp
  refine ⟨data' ++ [("ID", (frame.set i v).getD 1 0)], ?_⟩
  rw [parseFrame_ok_iff]
  have g0 : (frame.set i v).getD 0 0 = frame.getD 0 0 := getD_set_ne _ _ _ _ (by omega)
  have g1 : (frame.set i v).getD 1 0 = frame.getD 1 0 := getD_set_ne _ _ _ _ (by omega)
  have g2 : (frame.set i v).getD 2 0 = frame.getD 2 0 := getD_set_ne _ _ _ _ (by omega)
  have glast : (frame.set i v).getD ((frame.set i v).length - 1) 0 =
      frame.getD (frame.length - 1) 0 := by
    rw [hsetlen]
    exact getD_set_ne _ _ _ _ (by omega)
  refine ⟨by omega, by rw [g0]; exact h0, by rw [glast]; exact hlast,
    schema, by rw [g1]; exact hsm, by rw [hsetlen]; exact hslen,
    by rw [g2]; exact hnb, data', hp', rfl⟩

/-- Witness for the amended C1 theorem: the concrete mutation of the
counterexample, obtained by applying the theorem itself. -/
theorem decoder_accepts_any_payload_mutation_witness :
    ∃ d', parseFrame (List.set [1, 1, 1, 5, 0, 6, 5] 3 7)
      (buildSchemaMap [⟨1, 7, some 1, [⟨"X", 1, []⟩], []⟩]) = .ok (true, d') :=
  decoder_accepts_any_payload_mutation [1, 1, 1, 5, 0, 6, 5]
    (buildSchemaMap [⟨1, 7, some 1, [⟨"X", 1, []⟩], []⟩]) [("X", 5), ("ID", 1)]
    rfl 3 7 (by decide) (by decide)

/-! ## Column projection (`compute_all_columns`, lines 24-41)

Python builds the set `{"PacketNum", "ID"}` plus, per schema, the
`all_fields` entries, the field names and the bit names, and returns
`["PacketNum", "ID"] + sorted(c for c in cols if c not in ("PacketNum", "ID"))`.
Python's `sorted` on a `set` of strings produces the duplicate-free,
lexicographically sorted list; `insertSorted`/`sortedDedup` compute
exactly that. -/

/-- All column names a single schema entry contributes. -/
def schemaColNames (s : Schema) : List String :=
  s.all_fields ++ s.fields.map (fun f => f.name) ++ (s.fields.map (fun f => f.bits)).flatten

/-- Insert into a strictly sorted list, skipping duplicates. -/
def insertSorted (x : String) : List String → List String
  | [] => [x]
  | y :: ys =>
    if x < y then x :: y :: ys
    else if x = y then y :: ys
    else y :: insertSorted x ys

/-- Sorted, duplicate-free image of a list: Python's `sorted(set(l))`. -/
def sortedDedup (l : List String) : List String :=
  l.foldr insertSorted []

/-- Function `compute_all_columns` (lines 24-41). -/
def computeAllColumns (schemas : List Schema) : List String :=
  "PacketNum" :: "ID" ::
    sortedDedup ((schemas.map schemaColNames).flatten.filter
      (fun c => decide (c ≠ "PacketNum" ∧ c ≠ "ID")))

/-! ## Row projection and the per-frame loop of `stream_to_parquet` -/

/-- Python `data.get("ID")`: the dict's final value for the key, i.e. the
last assignment in the assignment-list model. -/
def dget (d : List (String × Nat)) (k : String) : Option Nat :=
  (d.reverse.find? (fun p => decide (p.1 = k))).map (fun p => p.2)

/-- Function `row_from_data` (lines 254-261): start from `{c: None}` over
the canonical columns, set `PacketNum` and `ID`, then copy every decoded
value whose key is a known column (`if k in row: row[k] = v`).  Folding
over the assignment list in order gives the same final dict values as
Python's iteration over `data.items()`. -/
def rowFromData (cols : List String) (packetNum : Nat) (data : List (String × Nat)) :
    List (String × Option Nat) :=
  data.foldl
    (fun r p => if (lookupAssoc r p.1).isSome then storeAssoc r p.1 (some p.2) else r)
    (storeAssoc (storeAssoc (cols.map (fun c => (c, (none : Option Nat))))
      "PacketNum" (some packetNum)) "ID" (dget data "ID"))

/-- The per-frame loop of `stream_to_parquet` (lines 300-361, identical in
hex and binary mode): each frame is decoded; a rejection (`ok=false`) is
logged and skipped; a success increments `packet_num` and appends the
projected row.  An uncaught exception from `_parse_frame` (the
`ValueError` of `_parse_payload`) propagates out of the loop, modelled as
`.error`: the run aborts and is marked failed (lines 400-402). -/
def processFrames (sm : List (Nat × Schema)) (cols : List String) :
    List (List Nat) → Nat → Except String (List (List (String × Option Nat)))
  | [], _ => .ok []
  | f :: fs, packetNum =>
    match parseFrame f sm with
    | .error e => .error e
    | .ok (false, _) => processFrames sm cols fs packetNum
    | .ok (true, data) =>
      match processFrames sm cols fs (packetNum + 1) with
      | .ok rows => .ok (rowFromData cols (packetNum + 1) data :: rows)
      | .error e => .error e

/-! ## C2: payload overflow raises instead of rejecting

`_parse_payload` raises `ValueError` on a structurally valid frame whose
payload is shorter than the declared fields; `_parse_frame` does not catch
it, nor does the per-frame loop — only the run-level handler does, which
marks the whole job failed (lines 400-402). -/

/-- C2.  The frame `01 01 01 00 00 05` (length 6, so an empty payload)
passes every structural check of its schema (id 1, length 6, num_bytes 1,
one 1-byte field `X`) and then raises from field extraction; fed to the
per-frame loop followed by a frame that is perfectly valid for schema
id 2, the run aborts with the error and produces no rows, instead of
skipping the bad frame and decoding the good one. -/
theorem payload_overflow_aborts_run :
    parseFrame [1, 1, 1, 0, 0, 5]
      (buildSchemaMap [⟨1, 6, some 1, [⟨"X", 1, []⟩], []⟩, ⟨2, 7, some 1, [⟨"X", 1, []⟩], []⟩]) =
      .error "Payload too short for field X" ∧
    parseFrame [1, 2, 1, 9, 0, 0, 5]
      (buildSchemaMap [⟨1, 6, some 1, [⟨"X", 1, []⟩], []⟩, ⟨2, 7, some 1, [⟨"X", 1, []⟩], []⟩]) =
      .ok (true, [("X", 9), ("ID", 2)]) ∧
    processFrames
      (buildSchemaMap [⟨1, 6, some 1, [⟨"X", 1, []⟩], []⟩, ⟨2, 7, some 1, [⟨"X", 1, []⟩], []⟩])
      (computeAllColumns [⟨1, 6, some 1, [⟨"X", 1, []⟩], []⟩, ⟨2, 7, some 1, [⟨"X", 1, []⟩], []⟩])
      [[1, 1, 1, 0, 0, 5], [1, 2, 1, 9, 0, 0, 5]] 0 =
      .error "Payload too short for field X" :=
  ⟨rfl, rfl, rfl⟩

/-! ## C6: field extraction -/

/-- The big-endian positional value of a byte string:
`b₀·256^(k-1) + … + b_{k-1}`. -/
def bigEndianVal (b : List Nat) : Nat :=
  b.foldl (fun n x => 256 * n + x) 0

theorem lor_shiftLeft_eq_add (n x : Nat) (h : x < 256) :
    (n <<< 8) ||| x = 256 * n + x := by
  have hdiv : ((n <<< 8) ||| x) >>> 8 = n := by
    have key : ∀ k a b : Nat, (a ||| b) >>> k = (a >>> k) ||| (b >>> k) := by
      intro k
      induction k with
      | zero => intro a b; simp
      | succ m ih =>
        intro a b
        rw [Nat.shiftRight_succ, Nat.shiftRight_succ, Nat.shiftRight_succ, ih, Nat.or_div_two]
    rw [key, Nat.shiftLeft_shiftRight, Nat.shiftRight_eq_div_pow,
      Nat.div_eq_of_lt (by norm_num at h ⊢; omega), Nat.or_zero]
  have hmod : ((n <<< 8) ||| x) % 2 ^ 8 = x := by
    rw [← Nat.and_pow_two_sub_one_eq_mod, Nat.and_distrib_right]
    have h1 : (n <<< 8) &&& (2 ^ 8 - 1) = 0 := by
      rw [Nat.and_pow_two_sub_one_eq_mod, Nat.shiftLeft_eq, Nat.mul_mod_left]
    have h2 : x &&& (2 ^ 8 - 1) = x := by
      rw [Nat.and_pow_two_sub_one_eq_mod]
      exact Nat.mod_eq_of_lt (by norm_num; omega)
    rw [h1, h2, Nat.zero_or]
  have hdm := Nat.div_add_mod ((n <<< 8) ||| x) (2 ^ 8)
  rw [← Nat.shiftRight_eq_div_pow] at hdm
  rw [hdiv, hmod] at hdm
  omega

/-- On genuine bytes (< 256), `_to_int_be`'s shift-or accumulation computes
the big-endian positional value. -/
theorem toIntBE_eq_bigEndianVal (b : List Nat) (hb : ∀ x ∈ b, x < 256) :
    toIntBE b = bigEndianVal b := by
  suffices key : ∀ (l : List Nat), (∀ x ∈ l, x < 256) → ∀ a : Nat,
      List.foldl (fun n x => (n <<< 8) ||| x) a l =
        List.foldl (fun n x => 256 * n + x) a l by
    exact key b hb 0
  intro l
  induction l with
  | nil => intro _ a; rfl
  | cons y ys ih =>
    intro hl a
    simp only [List.foldl_cons]
    rw [lor_shiftLeft_eq_add a y (hl y (by simp))]
    exact ih (fun x hx => hl x (by simp [hx])) _

/-- The record the decoder is claimed to produce from the payload, written
as an explicit formula over payload positions: fields sit at the running
offset; a 1-byte field contributes its raw byte and, per declared bit
name, bit `N` as `(byte >>> N) &&& 1` (LSB first); a multi-byte field
contributes the big-endian positional value of its slice. -/
def expectedCells (payload : List Nat) : Nat → List Field → List (String × Nat)
  | _, [] => []
  | off, f :: fs =>
    (if f.size = 1 then
      (f.name, payload.getD off 0) ::
        f.bits.enum.map (fun p => (p.2, (payload.getD off 0 >>> p.1) &&& 1))
    else
      [(f.name, bigEndianVal ((payload.drop off).take f.size))]) ++
    expectedCells payload (off + f.size) fs

theorem headD_take_drop (l : List Nat) (i n : Nat) (hn : 1 ≤ n) (hi : i < l.length) :
    ((l.drop i).take n).headD 0 = l.getD i 0 := by
  have h1 : l.getD i 0 = (l.drop i).getD 0 0 := by
    rw [List.getD_eq_getElem _ _ hi, List.getD_eq_getElem _ _ (by simp; omega)]
    rw [List.getElem_drop]
    congr 1
  have hne : l.drop i ≠ [] := by
    intro hc
    have hc' := congrArg List.length hc
    simp at hc'
    omega
  obtain ⟨x, xs, hx⟩ := List.exists_cons_of_ne_nil hne
  rw [h1, hx]
  cases n with
  | zero => omega
  | succ m => rfl

theorem fieldCellsOf_eq (payload : List Nat) (idx : Nat) (f : Field)
    (hfit : idx + f.size ≤ payload.length) (hbytes : ∀ x ∈ payload, x < 256) :
    fieldCellsOf payload idx f =
      (if f.size = 1 then
        (f.name, payload.getD idx 0) ::
          f.bits.enum.map (fun p => (p.2, (payload.getD idx 0 >>> p.1) &&& 1))
      else
        [(f.name, bigEndianVal ((payload.drop idx).take f.size))]) := by
  unfold fieldCellsOf expandBits
  by_cases h1 : f.size = 1
  · rw [if_pos h1, if_pos h1]
    rw [headD_take_drop payload idx f.size (by omega) (by omega)]
  · rw [if_neg h1, if_neg h1]
    rw [toIntBE_eq_bigEndianVal _ (fun x hx =>
      hbytes x (List.mem_of_mem_drop (List.mem_of_mem_take hx)))]

theorem parseFields_eq_expectedCells (flds : List Field) (payload : List Nat)
    (hbytes : ∀ x ∈ payload, x < 256) (idx : Nat) (out : List (String × Nat))
    (h : parseFields payload idx flds = .ok out) :
    out = expectedCells payload idx flds := by
  induction flds generalizing idx out with
  | nil =>
    unfold parseFields at h
    injection h with h
    rw [← h]
    rfl
  | cons f fs ih =>
    unfold parseFields at h
    by_cases hc : payload.length < idx + f.size
    · rw [if_pos hc] at h
      exact absurd h (by simp)
    · rw [if_neg hc] at h
      cases hrec : parseFields payload (idx + f.size) fs with
      | error e =>
        rw [hrec] at h
        exact absurd h (by simp)
      | ok out1 =>
        rw [hrec] at h
        injection h with h
        rw [← h]
        unfold expectedCells
        rw [ih (idx + f.size) out1 hrec,
          fieldCellsOf_eq payload idx f (by omega) hbytes]

theorem dget_append_self (d : List (String × Nat)) (k : String) (v : Nat) :
    dget (d ++ [(k, v)]) k = some v := by
  unfold dget
  rw [List.reverse_append]
  simp [List.find?]

/-- C6.  Every accepted frame's record is, in declared field order: at the
running offset, each 1-byte field's raw byte value, then (LSB first) one
0/1 cell per declared bit name with bit `N` equal to `(byte >>> N) &&& 1`;
each multi-byte field's big-endian positional value; and the record
carries the packet id `frame[1]` under the reserved column name `"ID"`. -/
theorem decoder_field_extraction (frame : List Nat) (sm : List (Nat × Schema))
    (d : List (String × Nat)) (hbytes : ∀ x ∈ frame, x < 256)
    (h : parseFrame frame sm = .ok (true, d)) :
    (∃ schema, smLookup sm (frame.getD 1 0) = some schema ∧
        d = expectedCells (framePayload frame) 0 schema.fields ++
          [("ID", frame.getD 1 0)]) ∧
      dget d "ID" = some (frame.getD 1 0) := by
  rw [parseFrame_ok_iff] at h
  obtain ⟨-, -, -, schema, hsm, -, -, data, hp, hd⟩ := h
  have hpb : ∀ x ∈ framePayload frame, x < 256 := fun x hx =>
    hbytes x (List.mem_of_mem_drop (List.mem_of_mem_take hx))
  have hdata := parseFields_eq_expectedCells schema.fields (framePayload frame)
    hpb 0 data hp
  refine ⟨⟨schema, hsm, by rw [hd, hdata]⟩, ?_⟩
  rw [hd]
  exact dget_append_self data _ _

/-- Witness for C6 at the frame `01 01 01 05 00 06 05` and a schema whose
1-byte field `A` declares bits `f0`, `f1`: the record is
`A=5, f0=1, f1=0, ID=1`. -/
theorem decoder_field_extraction_witness :
    (∃ schema,
        smLookup (buildSchemaMap [⟨1, 7, some 1, [⟨"A", 1, ["f0", "f1"]⟩], []⟩])
          (([1, 1, 1, 5, 0, 6, 5] : List Nat).getD 1 0) = some schema ∧
        [("A", 5), ("f0", 1), ("f1", 0), ("ID", 1)] =
          expectedCells (framePayload [1, 1, 1, 5, 0, 6, 5]) 0 schema.fields ++
            [("ID", ([1, 1, 1, 5, 0, 6, 5] : List Nat).getD 1 0)]) ∧
      dget [("A", 5), ("f0", 1), ("f1", 0), ("ID", 1)] "ID" =
        some (([1, 1, 1, 5, 0, 6, 5] : List Nat).getD 1 0) :=
  decoder_field_extraction [1, 1, 1, 5, 0, 6, 5]
    (buildSchemaMap [⟨1, 7, some 1, [⟨"A", 1, ["f0", "f1"]⟩], []⟩])
    [("A", 5), ("f0", 1), ("f1", 0), ("ID", 1)] (by decide) rfl

/-! ## C5: canonical columns -/

theorem insertSorted_mem (x : String) (l : List String) (a : String) :
    a ∈ insertSorted x l ↔ a = x ∨ a ∈ l := by
  induction l with
  | nil => simp [insertSorted]
  | cons y ys ih =>
    unfold insertSorted
    by_cases h1 : x < y
    · rw [if_pos h1]
      simp only [List.mem_cons]
    · by_cases h2 : x = y
      · rw [if_neg h1, if_pos h2]
        subst h2
        simp only [List.mem_cons]
        tauto
      · rw [if_neg h1, if_neg h2]
        simp only [List.mem_cons, ih]
        tauto

theorem insertSorted_sorted (x : String) (l : List String)
    (h : List.Sorted (· < ·) l) : List.Sorted (· < ·) (insertSorted x l) := by
  induction l with
  | nil => simp [insertSorted]
  | cons y ys ih =>
    rw [List.sorted_cons] at h
    unfold insertSorted
    by_cases h1 : x < y
    · rw [if_pos h1, List.sorted_cons]
      refine ⟨?_, List.sorted_cons.mpr h⟩
      intro b hb
      rcases List.mem_cons.mp hb with rfl | hb
      · exact h1
      · exact lt_trans h1 (h.1 b hb)
    · by_cases h2 : x = y
      · rw [if_neg h1, if_pos h2]
        exact List.sorted_cons.mpr h
      · rw [if_neg h1, if_neg h2, List.sorted_cons]
        refine ⟨?_, ih h.2⟩
        intro b hb
        rcases (insertSorted_mem x ys b).mp hb with rfl | hb
        · rcases lt_trichotomy b y with h' | h' | h'
          · exact absurd h' h1
          · exact absurd h' h2
          · exact h'
        · exact h.1 b hb

theorem sortedDedup_sorted (l : List String) : List.Sorted (· < ·) (sortedDedup l) := by
  unfold sortedDedup
  induction l with
  | nil => simp
  | cons x xs ih => exact insertSorted_sorted x _ ih

theorem sortedDedup_mem (l : List String) (a : String) :
    a ∈ sortedDedup l ↔ a ∈ l := by
  unfold sortedDedup
  induction l with
  | nil => simp
  | cons x xs ih =>
    simp only [List.foldr_cons, insertSorted_mem, ih, List.mem_cons]

/-- C5.  The canonical column list starts with `PacketNum` then `ID`; the
remainder is strictly sorted lexicographically (hence deterministic and
duplicate-free); the whole list is duplicate-free; and a name appears in
it exactly when it is `PacketNum`, `ID`, or one of some schema's
`all_fields` entries, field names or bit names. -/
theorem canonical_columns_characterization (schemas : List Schema) :
    (computeAllColumns schemas).take 2 = ["PacketNum", "ID"] ∧
      List.Sorted (· < ·) ((computeAllColumns schemas).drop 2) ∧
      (computeAllColumns schemas).Nodup ∧
      ∀ c, c ∈ computeAllColumns schemas ↔
        (c = "PacketNum" ∨ c = "ID" ∨ ∃ s ∈ schemas, c ∈ schemaColNames s) := by
  have hnotin : ∀ c : String, c = "PacketNum" ∨ c = "ID" →
      c ∉ sortedDedup ((schemas.map schemaColNames).flatten.filter
        (fun c => decide (c ≠ "PacketNum" ∧ c ≠ "ID"))) := by
    intro c hc hmem
    rw [sortedDedup_mem, List.mem_filter, decide_eq_true_eq] at hmem
    rcases hc with rfl | rfl
    · exact hmem.2.1 rfl
    · exact hmem.2.2 rfl
  refine ⟨rfl, sortedDedup_sorted _, ?_, ?_⟩
  · show ("PacketNum" :: "ID" :: sortedDedup _).Nodup
    refine List.nodup_cons.mpr ⟨?_, List.nodup_cons.mpr ⟨?_, ?_⟩⟩
    · intro hmem
      rcases List.mem_cons.mp hmem with h | h
      · exact absurd h (by decide)
      · exact hnotin _ (Or.inl rfl) h
    · exact hnotin _ (Or.inr rfl)
    · exact (sortedDedup_sorted _).nodup
  · intro c
    show c ∈ "PacketNum" :: "ID" :: sortedDedup _ ↔ _
    simp only [List.mem_cons, sortedDedup_mem, List.mem_filter, List.mem_flatten,
      List.mem_map, decide_eq_true_eq]
    constructor
    · rintro (rfl | rfl | ⟨⟨L, ⟨s, hs, rfl⟩, hcL⟩, -⟩)
      · exact Or.inl rfl
      · exact Or.inr (Or.inl rfl)
      · exact Or.inr (Or.inr ⟨s, hs, hcL⟩)
    · rintro (rfl | rfl | ⟨s, hs, hc⟩)
      · exact Or.inl rfl
      · exact Or.inr (Or.inl rfl)
      · by_cases h1 : c = "PacketNum"
        · exact Or.inl h1
        · by_cases h2 : c = "ID"
          · exact Or.inr (Or.inl h2)
          · exact Or.inr (Or.inr ⟨⟨schemaColNames s, ⟨s, hs, rfl⟩, hc⟩, h1, h2⟩)

/-! ## C7: duplicate schema ids -/

theorem lookupAssoc_storeAssoc {κ α : Type} [DecidableEq κ]
    (d : List (κ × α)) (k k' : κ) (v : α) :
    lookupAssoc (storeAssoc d k v) k' = if k' = k then some v else lookupAssoc d k' := by
  induction d with
  | nil =>
    by_cases h : k' = k
    · subst h
      rw [if_pos rfl]
      unfold storeAssoc lookupAssoc
      rw [List.find?_cons_of_pos _ (by simp)]
      rfl
    · rw [if_neg h]
      unfold storeAssoc lookupAssoc
      rw [List.find?_cons_of_neg _ (by simp; exact fun hc => h hc.symm)]
  | cons p ps ih =>
    unfold storeAssoc
    by_cases h1 : p.1 = k
    · rw [if_pos h1]
      by_cases h : k' = k
      · subst h
        rw [if_pos rfl]
        unfold lookupAssoc
        rw [List.find?_cons_of_pos _ (by simp)]
        rfl
      · rw [if_neg h]
        unfold lookupAssoc
        rw [List.find?_cons_of_neg _ (by simp; exact fun hc => h hc.symm),
          List.find?_cons_of_neg _ (by
            simp only [decide_eq_true_eq]
            exact fun hc => h (by rw [← hc, h1]))]
    · rw [if_neg h1]
      by_cases h2 : p.1 = k'
      · rw [if_neg (fun hc : k' = k => h1 (h2.trans hc))]
        unfold lookupAssoc
        rw [List.find?_cons_of_pos _ (by simp [h2]), List.find?_cons_of_pos _ (by simp [h2])]
      · show lookupAssoc (p :: storeAssoc ps k v) k' = _
        unfold lookupAssoc
        rw [List.find?_cons_of_neg _ (by simp [h2]), List.find?_cons_of_neg _ (by simp [h2])]
        exact ih

theorem smLookup_buildSchemaMap (schemas : List Schema) (k : Nat) :
    smLookup (buildSchemaMap schemas) k =
      schemas.reverse.find? (fun s => decide (s.id = k)) := by
  suffices key : ∀ (ss : List Schema) (m : List (Nat × Schema)),
      smLookup (ss.foldl (fun m s => storeAssoc m s.id s) m) k =
        ((ss.reverse.find? (fun s => decide (s.id = k))).map some).getD (smLookup m k) by
    have h := key schemas []
    rw [buildSchemaMap] at *
    rw [h]
    cases schemas.reverse.find? (fun s => decide (s.id = k)) with
    | none => simp [smLookup, lookupAssoc]
    | some s => simp
  intro ss
  induction ss with
  | nil => intro m; rfl
  | cons s rest ih =>
    intro m
    simp only [List.foldl_cons, List.reverse_cons]
    rw [ih, List.find?_append]
    cases h : rest.reverse.find? (fun s => decide (s.id = k)) with
    | some t => simp [h, Option.or]
    | none =>
      simp only [h, Option.none_or]
      show lookupAssoc (storeAssoc m s.id s) k = _
      rw [lookupAssoc_storeAssoc]
      by_cases hs : s.id = k
      · rw [List.find?_cons_of_pos _ (by simp [hs]), if_pos hs.symm]
        simp
      · rw [List.find?_cons_of_neg _ (by simp [hs]), if_neg (fun hc : k = s.id => hs hc.symm)]
        simp [smLookup, lookupAssoc]

/-- C7 counterexample.  Loading a source with two schema definitions that
share id 7 does not fail: it produces a registry in which the later
definition has overwritten the earlier one. -/
theorem schema_registry_duplicate_counterexample :
    loadSchemaMap [⟨7, 6, some 1, [], ["A"]⟩, ⟨7, 8, some 2, [], ["B"]⟩] =
      .ok [(7, ⟨7, 8, some 2, [], ["B"]⟩)] ∧
    (⟨7, 6, some 1, [], ["A"]⟩ : Schema) ≠ ⟨7, 8, some 2, [], ["B"]⟩ :=
  ⟨rfl, by decide⟩

/-- C7 (amended).  Loading the registry never fails on duplicate ids: the
dict comprehension always produces a registry, and lookup of any id
returns the *last* schema definition in the source bearing that id. -/
theorem schema_registry_last_wins (schemas : List Schema) (k : Nat) :
    loadSchemaMap schemas = .ok (buildSchemaMap schemas) ∧
      smLookup (buildSchemaMap schemas) k =
        schemas.reverse.find? (fun s => decide (s.id = k)) :=
  ⟨rfl, smLookup_buildSchemaMap schemas k⟩

/-! ## C8: sequence numbering -/

theorem rowFromData_packetNum (cols : List String) (pn : Nat)
    (data : List (String × Nat)) (hnd : ∀ p ∈ data, p.1 ≠ "PacketNum") :
    lookupAssoc (rowFromData cols pn data) "PacketNum" = some (some pn) := by
  unfold rowFromData
  have base :
      lookupAssoc (storeAssoc (storeAssoc (cols.map (fun c => (c, (none : Option Nat))))
        "PacketNum" (some pn)) "ID" (dget data "ID")) "PacketNum" = some (some pn) := by
    rw [lookupAssoc_storeAssoc, if_neg (by decide), lookupAssoc_storeAssoc, if_pos rfl]
  generalize hr : storeAssoc (storeAssoc (cols.map (fun c => (c, (none : Option Nat))))
    "PacketNum" (some pn)) "ID" (dget data "ID") = r at base ⊢
  clear hr
  induction data generalizing r with
  | nil => exact base
  | cons p ps ih =>
    simp only [List.foldl_cons]
    apply ih (fun q hq => hnd q (by simp [hq]))
    by_cases hp : (lookupAssoc r p.1).isSome
    · rw [if_pos hp, lookupAssoc_storeAssoc,
        if_neg (fun hc : "PacketNum" = p.1 => hnd p (by simp) hc.symm)]
      exact base
    · rw [if_neg hp]
      exact base

/-- Keys produced by field extraction are field names or bit names. -/
theorem parseFields_keys (flds : List Field) (payload : List Nat) (idx : Nat)
    (out : List (String × Nat)) (h : parseFields payload idx flds = .ok out) :
    ∀ p ∈ out, ∃ f ∈ flds, p.1 = f.name ∨ p.1 ∈ f.bits := by
  induction flds generalizing idx out with
  | nil =>
    unfold parseFields at h
    injection h with h
    rw [← h]
    intro p hp
    exact absurd hp (by simp)
  | cons f fs ih =>
    unfold parseFields at h
    by_cases hc : payload.length < idx + f.size
    · rw [if_pos hc] at h
      exact absurd h (by simp)
    · rw [if_neg hc] at h
      cases hrec : parseFields payload (idx + f.size) fs with
      | error e =>
        rw [hrec] at h
        exact absurd h (by simp)
      | ok out1 =>
        rw [hrec] at h
        injection h with h
        rw [← h]
        intro p hp
        rcases List.mem_append.mp hp with hp | hp
        · refine ⟨f, by simp, ?_⟩
          unfold fieldCellsOf at hp
          by_cases h1 : f.size = 1
          · rw [if_pos h1] at hp
            rcases List.mem_cons.mp hp with rfl | hp
            · exact Or.inl rfl
            · unfold expandBits at hp
              obtain ⟨q, hq, rfl⟩ := List.mem_map.mp hp
              refine Or.inr ?_
              have hzip : q ∈ (List.range f.bits.length).zip f.bits := by
                rwa [← List.enum_eq_zip_range]
              exact (List.of_mem_zip hzip).2
          · rw [if_neg h1] at hp
            rcases List.mem_singleton.mp hp with rfl
            exact Or.inl rfl
        · obtain ⟨g, hg, hgp⟩ := ih (idx + f.size) out1 hrec p hp
          exact ⟨g, by simp [hg], hgp⟩

/-- A schema found in the registry comes from the source list. -/
theorem smLookup_mem (schemas : List Schema) (k : Nat) (s : Schema)
    (h : smLookup (buildSchemaMap schemas) k = some s) : s ∈ schemas := by
  rw [smLookup_buildSchemaMap] at h
  exact List.mem_reverse.mp (List.mem_of_find?_eq_some h)

/-- C8 (amended).  Over any error-free run of the per-frame loop whose
schemas declare no field or bit named `PacketNum`, the i-th emitted row
(0-based i) carries `PacketNum = i + 1`: numbering starts at 1, increases
by one per accepted frame, and rejected frames consume no number. -/
theorem packet_numbering (schemas : List Schema) (frames : List (List Nat))
    (rows : List (List (String × Option Nat)))
    (hschemas : ∀ s ∈ schemas, ∀ f ∈ s.fields,
      f.name ≠ "PacketNum" ∧ ∀ b ∈ f.bits, b ≠ "PacketNum")
    (h : processFrames (buildSchemaMap schemas) (computeAllColumns schemas)
      frames 0 = .ok rows) :
    ∀ i (hi : i < rows.length),
      lookupAssoc (rows.get ⟨i, hi⟩) "PacketNum" = some (some (i + 1)) := by
  suffices key : ∀ (fr : List (List Nat)) (n : Nat)
      (rws : List (List (String × Option Nat))),
      processFrames (buildSchemaMap schemas) (computeAllColumns schemas) fr n = .ok rws →
      ∀ i (hi : i < rws.length),
        lookupAssoc (rws.get ⟨i, hi⟩) "PacketNum" = some (some (n + i + 1)) by
    intro i hi
    have := key frames 0 rows h i hi
    simpa using this
  intro fr
  induction fr with
  | nil =>
    intro n rws h
    unfold processFrames at h
    injection h with h
    subst h
    intro i hi
    exact absurd hi (by simp)
  | cons f fs ih =>
    intro n rws h
    unfold processFrames at h
    cases hpf : parseFrame f (buildSchemaMap schemas) with
    | error e =>
      rw [hpf] at h
      exact absurd h (by simp)
    | ok pr =>
      rw [hpf] at h
      obtain ⟨ok, data⟩ := pr
      cases ok with
      | false => exact ih n rws h
      | true =>
        cases hrec : processFrames (buildSchemaMap schemas)
            (computeAllColumns schemas) fs (n + 1) with
        | error e =>
          rw [hrec] at h
          exact absurd h (by simp)
        | ok rws1 =>
          rw [hrec] at h
          injection h with h
          subst h
          intro i hi
          cases i with
          | zero =>
            show lookupAssoc (rowFromData (computeAllColumns schemas) (n + 1) data)
              "PacketNum" = some (some (n + 0 + 1))
            rw [rowFromData_packetNum]
            intro p hp
            rw [parseFrame_ok_iff] at hpf
            obtain ⟨-, -, -, schema, hsm, -, -, data', hp', hd⟩ := hpf
            rw [hd] at hp
            rcases List.mem_append.mp hp with hp | hp
            · obtain ⟨g, hg, hgp⟩ := parseFields_keys schema.fields
                (framePayload f) 0 data' hp' p hp
              have hsmem := smLookup_mem schemas _ _ hsm
              rcases hgp with hgp | hgp
              · rw [hgp]
                exact (hschemas schema hsmem g hg).1
              · exact (hschemas schema hsmem g hg).2 _ hgp
            · rcases List.mem_singleton.mp hp with rfl
              exact (by decide : ("ID" : String) ≠ "PacketNum")
          | succ j =>
            have := ih (n + 1) rws1 hrec j (by simpa using hi)
            show lookupAssoc (rws1.get ⟨j, _⟩) "PacketNum" = _
            rw [this]
            congr 2
            omega

/-- Witness for the amended C8 theorem: a rejected frame (unknown id 3)
followed by a valid frame yields one row with `PacketNum = 1`. -/
theorem packet_numbering_witness :
    lookupAssoc (List.get [[("PacketNum", some 1), ("ID", some 1), ("X", some 5)]]
      ⟨0, by decide⟩) "PacketNum" = some (some 1) :=
  packet_numbering [⟨1, 7, some 1, [⟨"X", 1, []⟩], []⟩]
    [[1, 3, 1, 0, 0, 5], [1, 1, 1, 5, 0, 6, 5]]
    [[("PacketNum", some 1), ("ID", some 1), ("X", some 5)]]
    (by decide) rfl 0 (by decide)

/-- C8 counterexample.  A schema may declare a field literally named
`PacketNum`; `row_from_data` then overwrites the sequence number with the
decoded field value: the first (and only) row of this run carries
`PacketNum = 9`, not `1`. -/
theorem packet_numbering_counterexample :
    processFrames (buildSchemaMap [⟨1, 7, some 1, [⟨"PacketNum", 1, []⟩], []⟩])
      (computeAllColumns [⟨1, 7, some 1, [⟨"PacketNum", 1, []⟩], []⟩])
      [[1, 1, 1, 9, 0, 0, 5]] 0 =
      .ok [[("PacketNum", some 9), ("ID", some 1)]] ∧
    lookupAssoc [("PacketNum", (some 9 : Option Nat)), ("ID", some 1)] "PacketNum" =
      some (some 9) ∧
    (some (some 9) : Option (Option Nat)) ≠ some (some 1) :=
  ⟨rfl, rfl, by decide⟩

/-! ## C3: output atomicity

A small filesystem-effect model for the writer-relevant operations of
`stream_to_parquet`.  `ParquetWriter(path)` creates (truncates) the file
and leaves it open and incomplete; `write_table` appends (still
incomplete); `close()` writes the footer, completing the file;
`os.replace` renames; `os.remove` deletes. -/

inductive FsOp where
  | openW (path : String)
  | writeB (path : String)
  | closeW (path : String)
  | replace (src dst : String)
  | remove (path : String)
  deriving Repr, DecidableEq

inductive FStat where
  | absent
  | part
  | complete
  deriving Repr, DecidableEq

def applyOp (fs : String → FStat) : FsOp → String → FStat
  | .openW p, q => if q = p then .part else fs q
  | .writeB p, q => if q = p then .part else fs q
  | .closeW p, q => if q = p then .complete else fs q
  | .replace src dst, q => if q = dst then fs src else if q = src then .absent else fs q
  | .remove p, q => if q = p then .absent else fs q

def runOps (fs : String → FStat) : List FsOp → String → FStat
  | [] => fs
  | op :: ops => runOps (applyOp fs op) ops

def initFs : String → FStat := fun _ => .absent

/-- Whether some intermediate filesystem state reached during `ops`
(starting from an empty dataset directory) has a partially written file
at `p`. -/
def observesPartial (ops : List FsOp) (p : String) : Bool :=
  (List.range (ops.length + 1)).any
    (fun k => decide (runOps initFs (ops.take k) p = .part))

/-- Writer-side state of one pipeline block: rows in the current batch,
whether the writer has been opened, and the filesystem ops so far. -/
structure WriterSt where
  cnt : Nat
  opened : Bool
  ops : List FsOp
  deriving Repr, DecidableEq

/-- `flush_batch` (lines 282-297), and the inline batch flushes of the
second block (lines 480-485 etc.): nothing when the batch is empty,
otherwise the writer is opened lazily (creating the file at `path`) and
the batch is written. -/
def flushOps (path : String) (w : WriterSt) : WriterSt :=
  if w.cnt = 0 then w
  else if w.opened then { cnt := 0, opened := true, ops := w.ops ++ [.writeB path] }
  else { cnt := 0, opened := true, ops := w.ops ++ [.openW path, .writeB path] }

/-- The per-frame loop as it affects the writer: rejects are skipped,
accepted rows are batched, a full batch is flushed; a decode exception
stops the loop (second component `false`). -/
def feedRows (path : String) (batchSize : Nat) :
    List (Except String Bool) → WriterSt → WriterSt × Bool
  | [], w => (w, true)
  | o :: os, w =>
    match o with
    | .error _ => (w, false)
    | .ok false => feedRows path batchSize os w
    | .ok true =>
      feedRows path batchSize os
        (if batchSize ≤ w.cnt + 1 then flushOps path { w with cnt := w.cnt + 1 }
         else { w with cnt := w.cnt + 1 })

/-- Filesystem trace of the first block of `stream_to_parquet`
(lines 223-412): batches go to the temporary path; on success the final
partial batch is flushed, the writer closed, and the temporary file
atomically renamed over the final path (lines 371-386); on an exception
the writer is closed and the temporary file removed (lines 400-410). -/
def block1Ops (outcomes : List (Except String Bool)) (tmp fin : String)
    (batchSize : Nat) : List FsOp :=
  let r := feedRows tmp batchSize outcomes ⟨0, false, []⟩
  if r.2 then
    let w := flushOps tmp r.1
    if w.opened then w.ops ++ [.closeW tmp, .replace tmp fin] else w.ops
  else
    if r.1.opened then r.1.ops ++ [.closeW tmp, .remove tmp] else r.1.ops

/-- Filesystem trace of the second, near-duplicate pipeline the function
falls through into (lines 414-586): the same loop, but the writer is
opened directly on the *final* path (lines 483, 506, 529, 549, 564),
nothing is renamed, and the failure handler (lines 582-584) performs no
cleanup. -/
def block2Ops (outcomes : List (Except String Bool)) (fin : String)
    (batchSize : Nat) : List FsOp :=
  let r := feedRows fin batchSize outcomes ⟨0, false, []⟩
  if r.2 then
    let w := flushOps fin r.1
    if w.opened then w.ops ++ [.closeW fin] else w.ops
  else
    r.1.ops

/-- Filesystem trace of one `stream_to_parquet` run on a raw binary source
read in `chunks`.  Both blocks scan the same bytes with fresh scanners,
so they see the same frames and the same decode outcomes; status/log
calls and the database update have no filesystem effect and are
omitted. -/
def streamOps (chunks : List (List Nat)) (schemas : List Schema)
    (batchSize : Nat) : List FsOp :=
  let outcomes := (scanAllFrames START_FRAME END_FRAME chunks.flatten).map
    (fun f => (parseFrame f (buildSchemaMap schemas)).map (fun pr => pr.1))
  block1Ops outcomes "data.parquet.tmp" "data.parquet" batchSize ++
    block2Ops outcomes "data.parquet" batchSize

/-- C3.  Run on a source holding the single valid frame
`01 02 03 09 00 08 05` (schema id 2, length 7, one 1-byte field `X`),
batch size 5000.  The first block writes the temporary file, closes it
and atomically renames it — and then the duplicated second pipeline
re-opens the *final* path directly and writes into it, so an
intermediate filesystem state has a partially written artifact at
`data.parquet`, contradicting the claim that rows only ever reach the
final path through a completed temporary file. -/
theorem atomic_output_violated_by_second_pipeline :
    streamOps [[1, 2, 3, 9, 0, 8, 5]] [⟨2, 7, none, [⟨"X", 1, []⟩], []⟩] 5000 =
      [.openW "data.parquet.tmp", .writeB "data.parquet.tmp",
        .closeW "data.parquet.tmp", .replace "data.parquet.tmp" "data.parquet",
        .openW "data.parquet", .writeB "data.parquet", .closeW "data.parquet"] ∧
    observesPartial (streamOps [[1, 2, 3, 9, 0, 8, 5]]
      [⟨2, 7, none, [⟨"X", 1, []⟩], []⟩] 5000) "data.parquet" = true :=
  ⟨rfl, by decide⟩

end ParseService
